import Mathlib

/-!
Verification of the hex-grid shortest-path core of the repository
(`src/hex_grid/src/main.rs`): axial hex coordinates, the offset-layout
grid with bounds-checked weight lookup, the map loader, and the
corner-to-corner minimum-cost search.

Machine integers (`i32`, `u32`, `usize`) are embedded as `Int`/`Nat`;
the grids involved are far below any overflow boundary, and none of the
verified properties depend on wrap-around behaviour.
-/

/-- Embeds `struct Hex { q: i32, r: i32 }`. -/
structure Hex where
  q : Int
  r : Int
deriving DecidableEq, Repr

/-- Embeds `Hex::distance`: `((self.q - other.q).abs() + (self.q + self.r -
other.q - other.r).abs() + (self.r - other.r).abs()) as u32 / 2`.  The three
`i32` absolute values become `Int.natAbs`; the final division is the `u32`
(natural-number) division by 2. -/
def Hex.distance (a b : Hex) : Nat :=
  ((a.q - b.q).natAbs + (a.q + a.r - b.q - b.r).natAbs + (a.r - b.r).natAbs) / 2

/-- Embeds `Hex::neighbors`, in the exact source order. -/
def Hex.neighbors (h : Hex) : List Hex :=
  [⟨h.q + 1, h.r⟩, ⟨h.q - 1, h.r⟩, ⟨h.q, h.r + 1⟩,
   ⟨h.q, h.r - 1⟩, ⟨h.q + 1, h.r - 1⟩, ⟨h.q - 1, h.r + 1⟩]

/-- Embeds `struct Grid { width: usize, height: usize, tiles: Vec<Vec<u32>> }`. -/
structure Grid where
  width : Nat
  height : Nat
  tiles : List (List Nat)
deriving DecidableEq, Repr

/-- Embeds the Rust expression `hex.r & 1` on a two's-complement `i32`:
bitwise AND with 1 keeps exactly the lowest bit, which is 1 for odd `r`
and 0 for even `r` (also for negative `r`), i.e. the Euclidean remainder
`r % 2`, which is what `%` on `Int` computes. -/
def land1 (r : Int) : Int := r % 2

/-- Embeds `let col = hex.q + (hex.r - (hex.r & 1)) / 2` from
`Grid::get_weight`.  Rust `/` on `i32` truncates toward zero, which is
`Int.tdiv`. -/
def hexCol (hex : Hex) : Int := hex.q + (hex.r - land1 hex.r).tdiv 2

/-- Embeds `let row = hex.r` from `Grid::get_weight`. -/
def hexRow (hex : Hex) : Int := hex.r

/-- The bounds check of `Grid::get_weight`:
`col >= 0 && col < self.width as i32 && row >= 0 && row < self.height as i32`. -/
def inBounds (g : Grid) (hex : Hex) : Bool :=
  decide (0 ≤ hexCol hex) && decide (hexCol hex < (g.width : Int)) &&
  decide (0 ≤ hexRow hex) && decide (hexRow hex < (g.height : Int))

/-- Fallible lookup into the tiles table: `some` iff both indices are in
range of the actual (possibly ragged) `Vec<Vec<u32>>`. -/
def tileAt (g : Grid) (row col : Nat) : Option Nat :=
  g.tiles[row]?.bind fun t => t[col]?

/-- Embeds `Grid::get_weight`.  The outer `Option` models panic-freedom of
the unchecked indexing `self.tiles[row as usize][col as usize]`: `none`
is a Rust index-out-of-range panic (possible only when the tiles table is
smaller than the declared `width`/`height` claim), and `some v` is a normal
return of `v` (itself `Some(weight)` or `None` for out of bounds). -/
def Grid.get_weight (g : Grid) (hex : Hex) : Option (Option Nat) :=
  if inBounds g hex then (tileAt g (hexRow hex).toNat (hexCol hex).toNat).map some
  else some none

/-- `Grid::get_weight` with the panic layer collapsed: the value actually
used by the search, which only ever runs on structurally valid grids where
the panic case is unreachable. -/
def getWeightRun (g : Grid) (hex : Hex) : Option Nat :=
  (g.get_weight hex).join

/-- The weight stored at `(row, col)` of a well-formed grid. -/
def tileD (g : Grid) (row col : Nat) : Nat :=
  (g.tiles.getD row []).getD col 0

/-- The weight of an in-bounds hex of a well-formed grid. -/
def weightD (g : Grid) (hex : Hex) : Nat :=
  (getWeightRun g hex).getD 0

/-- Structural well-formedness of a grid: the tiles table really has the
declared extent (at least `height` rows, each with at least `width`
entries).  The loader is responsible for this invariant (spec §3). -/
def Rect (g : Grid) : Prop :=
  g.height ≤ g.tiles.length ∧ ∀ t ∈ g.tiles, g.width ≤ t.length

/-- All tile weights are positive (the documented map format). -/
def MinOne (g : Grid) : Prop :=
  ∀ t ∈ g.tiles, ∀ x ∈ t, 1 ≤ x

/-- All tile weights equal the constant `k`. -/
def Uniform (g : Grid) (k : Nat) : Prop :=
  ∀ t ∈ g.tiles, ∀ x ∈ t, x = k

/-- The fixed search start `Hex::new(0, 0)` from `find_shortest_path`. -/
def startHex : Hex := ⟨0, 0⟩

/-- The fixed search goal `Hex::new(grid.width as i32 - 1, grid.height as
i32 - 1)` from `find_shortest_path`. -/
def goalHex (g : Grid) : Hex := ⟨(g.width : Int) - 1, (g.height : Int) - 1⟩

/-- Embeds the successor closure passed to `astar`:
`p.neighbors().into_iter().filter_map(|n| grid.get_weight(&n).map(|w| (n, w)))`. -/
def succs (g : Grid) (p : Hex) : List (Hex × Nat) :=
  p.neighbors.filterMap fun n => (getWeightRun g n).map fun w => (n, w)

/-- One step of a bounds-valid walk: `b` is one of `a`'s six neighbors and
passes the grid bounds check. -/
def stepOK (g : Grid) (a b : Hex) : Prop :=
  b ∈ a.neighbors ∧ inBounds g b = true

instance (g : Grid) (a b : Hex) : Decidable (stepOK g a b) :=
  inferInstanceAs (Decidable (b ∈ a.neighbors ∧ inBounds g b = true))

/-- A bounds-valid walk, stored in reverse (the head is the walk's final
node, the last element is `startHex`), together with its accumulated cost:
the sum of the weights of every tile entered after the start. -/
inductive RWalk (g : Grid) : List Hex → Hex → Nat → Prop
  | base : RWalk g [startHex] startHex 0
  | step {p : List Hex} {u v : Hex} {c : Nat} :
      RWalk g p u c → stepOK g u v → RWalk g (v :: p) v (c + weightD g v)

/-- Search state: at most one entry `(node, best cost so far, reversed
path realising it)` per node. -/
abbrev Table := List (Hex × Nat × List Hex)

/-- First entry for the given node, if any. -/
def lookupT (t : Table) (v : Hex) : Option (Nat × List Hex) :=
  (t.find? fun e => decide (e.1 = v)).map (·.2)

/-- Record cost `c` (with path `p`) for node `v` unless the table already
has a better-or-equal cost for it. -/
def upsert (t : Table) (v : Hex) (c : Nat) (p : List Hex) : Table :=
  match lookupT t v with
  | some cp => if cp.1 ≤ c then t else (v, c, p) :: t.filter fun e => decide (¬ e.1 = v)
  | none => (v, c, p) :: t

/-- All one-step extensions of the walks currently in the table. -/
def candidates (g : Grid) (t : Table) : List (Hex × Nat × List Hex) :=
  t.flatMap fun e => (succs g e.1).map fun sw => (sw.1, e.2.1 + sw.2, sw.1 :: e.2.2)

/-- One relaxation round: merge every one-step extension into the table. -/
def relaxRound (g : Grid) (t : Table) : Table :=
  (candidates g t).foldl (fun acc e => upsert acc e.1 e.2.1 e.2.2) t

/-- `k` relaxation rounds starting from the table holding only the start
node at cost 0 (`astar` seeds its frontier with the start node and never
bounds-checks it). -/
def iterRelax (g : Grid) : Nat → Table
  | 0 => [(startHex, 0, [startHex])]
  | n + 1 => relaxRound g (iterRelax g n)

/-- Enough rounds to find every simple bounds-valid walk: a duplicate-free
walk visits at most `width * height` in-bounds hexes plus the start. -/
def searchBound (g : Grid) : Nat := g.width * g.height + 1

/-- Modelled from the spec: the search itself is `pathfinding::prelude::astar`,
a dependency whose source is not part of this repository.  The repository
supplies the start node `Hex{0,0}`, the goal `Hex{width-1, height-1}`, the
successor closure (`succs`, six neighbors filtered by `Grid::get_weight`)
with the entered tile's weight as edge cost, and the hex-distance heuristic;
per spec §4.3 the heuristic is an admissible, consistent lower bound whenever
every weight is ≥ 1, so `astar` returns a minimum-cost bounds-valid walk from
start to goal, or `None` when the goal is unreachable.  That contract is
modelled here by exhaustive bounded relaxation (Bellman–Ford) over the same
successor function, which computes exactly that optimum. -/
def find_shortest_path (g : Grid) : Option (List Hex × Nat) :=
  (lookupT (iterRelax g (searchBound g)) (goalHex g)).map fun cp => (cp.2.reverse, cp.1)

/-- Validity of a candidate start-to-goal sequence, as the claims state
it: the sequence runs from `Hex{0,0}` (never bounds-checked, exactly as in
the search) to `Hex{width-1, height-1}`, every consecutive pair are
neighbors, and every node after the start passes the grid bounds check. -/
def isValidSeq (g : Grid) (p : List Hex) : Prop :=
  p.head? = some startHex ∧ p.getLast? = some (goalHex g) ∧ p.Chain' (stepOK g)

/-- Executable check for the chain condition of `isValidSeq`. -/
def chainB (g : Grid) : List Hex → Bool
  | a :: b :: rest => decide (b ∈ a.neighbors) && inBounds g b && chainB g (b :: rest)
  | _ => true

theorem chainB_iff (g : Grid) : ∀ p, chainB g p = true ↔ p.Chain' (stepOK g) := by
  intro p
  induction p with
  | nil => simp [chainB]
  | cons a p ih =>
    cases p with
    | nil => simp [chainB]
    | cons b rest =>
      rw [List.chain'_cons]
      show (decide (b ∈ a.neighbors) && inBounds g b && chainB g (b :: rest)) = true ↔ _
      rw [Bool.and_eq_true, Bool.and_eq_true, decide_eq_true_eq, ih]
      unfold stepOK
      tauto

instance (g : Grid) (p : List Hex) : Decidable (isValidSeq g p) :=
  decidable_of_iff (p.head? = some startHex ∧ p.getLast? = some (goalHex g) ∧
      chainB g p = true)
    (by unfold isValidSeq; rw [chainB_iff])

instance (g : Grid) : Decidable (Rect g) :=
  inferInstanceAs (Decidable (g.height ≤ g.tiles.length ∧ ∀ t ∈ g.tiles, g.width ≤ t.length))

instance (g : Grid) : Decidable (MinOne g) :=
  inferInstanceAs (Decidable (∀ t ∈ g.tiles, ∀ x ∈ t, 1 ≤ x))

instance (g : Grid) (k : Nat) : Decidable (Uniform g k) :=
  inferInstanceAs (Decidable (∀ t ∈ g.tiles, ∀ x ∈ t, x = k))

/-- The cost of a sequence: the sum of the weights of all tiles in it
except the start tile. -/
def seqCost (g : Grid) (p : List Hex) : Nat :=
  (p.tail.map (weightD g)).sum

/-- Accumulator-based whitespace splitter over the line's characters. -/
def splitAux : List Char → List Char → List (List Char)
  | [], cur => if cur.isEmpty then [] else [cur.reverse]
  | c :: cs, cur =>
    if c = ' ' then
      if cur.isEmpty then splitAux cs [] else cur.reverse :: splitAux cs []
    else splitAux cs (c :: cur)

/-- Splits a line into its space-separated tokens; models Rust
`split_whitespace()` for the space-separated map format (the preceding
`line.trim()` in the source removes only characters `split_whitespace`
would discard anyway, so it needs no separate model). -/
def splitWs (s : String) : List (List Char) :=
  splitAux s.toList []

/-- Models Rust `str::parse::<u32>` / `<usize>` for the tokens the map
format cares about: a non-empty all-digit token parses to its value,
anything else (empty, signs, letters) fails.  The verified inputs stay far
below the `u32` overflow bound, which is therefore not modelled. -/
def parseNat (t : List Char) : Option Nat :=
  if t ≠ [] ∧ t.all Char.isDigit then
    some (t.foldl (fun acc c => acc * 10 + (c.toNat - 48)) 0)
  else none

/-- Result of `read_map`: a returned `Ok(Grid)`, a returned I/O error
(`Err`), or a Rust panic (out-of-range index or `unwrap` on a failed
parse), which is not a returned value at all. -/
inductive LoadResult where
  | ok (g : Grid)
  | ioErr
  | panicked
deriving DecidableEq, Repr

/-- One data row of `read_map`: `line.split_whitespace().map(|s|
s.parse().unwrap()).collect()`; any unparsable token is a panic. -/
def parseRow (line : String) : Option (List Nat) :=
  (splitWs line).mapM parseNat

/-- Embeds `read_map`.  The file is `none` when `File::open` fails
(missing file) and `some lines` otherwise, with `lines` the list of the
file's lines.  The first line (or `""` for an empty file) is the header;
`parts[0]`/`parts[1]` indexing out of range and every failed
`parse().unwrap()` are panics.  Note what is *not* here: no check that the
row count is `height`, that each row's token count is `width`, or that any
weight is positive. -/
def read_map (file : Option (List String)) : LoadResult :=
  match file with
  | none => .ioErr
  | some lines =>
    let parts := splitWs (lines.headD "")
    match parts[0]?.bind parseNat, parts[1]?.bind parseNat with
    | some width, some height =>
      match (lines.drop 1).mapM parseRow with
      | some tiles => .ok ⟨width, height, tiles⟩
      | none => .panicked
    | _, _ => .panicked

/-! ### Arithmetic of the coordinate conversion -/

/-- The subtraction makes the dividend even, so Rust's truncating division
agrees with floor division: the whole conversion is `q + ⌊r/2⌋`. -/
theorem tdiv_step (r : Int) : (r - land1 r).tdiv 2 = r / 2 := by
  have h : r - land1 r = 2 * (r / 2) := by unfold land1; omega
  rw [h, Int.mul_tdiv_cancel_left _ (by norm_num)]

theorem hexCol_eq (x : Hex) : hexCol x = x.q + x.r / 2 := by
  unfold hexCol
  rw [tdiv_step]

theorem fdiv_two (r : Int) : r.fdiv 2 = r / 2 :=
  Int.fdiv_eq_ediv r (by norm_num)

theorem inBounds_iff {g : Grid} {x : Hex} :
    inBounds g x = true ↔
      0 ≤ x.q + x.r / 2 ∧ x.q + x.r / 2 < (g.width : Int) ∧
      0 ≤ x.r ∧ x.r < (g.height : Int) := by
  simp [inBounds, hexCol_eq, hexRow, and_assoc]

/-! ### Weight lookup on well-formed grids -/

theorem tileAt_eq_some {g : Grid} (hrect : Rect g) {row col : Nat}
    (hr : row < g.height) (hc : col < g.width) :
    tileAt g row col = some (tileD g row col) := by
  obtain ⟨hlen, hrow⟩ := hrect
  have h1 : row < g.tiles.length := lt_of_lt_of_le hr hlen
  have h2 : col < g.tiles[row].length :=
    lt_of_lt_of_le hc (hrow _ (List.getElem_mem h1))
  unfold tileAt tileD
  rw [List.getElem?_eq_getElem h1]
  simp [List.getElem?_eq_getElem h2, List.getD_eq_getElem?_getD,
    List.getElem?_eq_getElem h1]

theorem getWeightRun_eq (g : Grid) (x : Hex) :
    getWeightRun g x =
      if inBounds g x then tileAt g (hexRow x).toNat (hexCol x).toNat else none := by
  unfold getWeightRun Grid.get_weight
  by_cases hb : inBounds g x = true
  · simp only [hb, if_true]
    cases tileAt g (hexRow x).toNat (hexCol x).toNat <;> simp
  · simp only [Bool.not_eq_true] at hb
    simp [hb]

theorem getWeightRun_of_inBounds {g : Grid} {x : Hex} (hrect : Rect g)
    (hb : inBounds g x = true) :
    getWeightRun g x = some (tileD g (hexRow x).toNat (hexCol x).toNat) := by
  rw [getWeightRun_eq, if_pos hb]
  rcases inBounds_iff.mp hb with ⟨h1, h2, h3, h4⟩
  apply tileAt_eq_some hrect
  · unfold hexRow; omega
  · rw [hexCol_eq]; omega

theorem getWeightRun_inBounds {g : Grid} {x : Hex} {w : Nat}
    (h : getWeightRun g x = some w) : inBounds g x = true := by
  rw [getWeightRun_eq] at h
  by_cases hb : inBounds g x = true
  · exact hb
  · simp only [Bool.not_eq_true] at hb
    simp [hb] at h

theorem weightD_of_run {g : Grid} {x : Hex} {w : Nat}
    (h : getWeightRun g x = some w) : weightD g x = w := by
  unfold weightD
  rw [h]
  rfl

theorem weightD_of_inBounds {g : Grid} {x : Hex} (hrect : Rect g)
    (hb : inBounds g x = true) :
    weightD g x = tileD g (hexRow x).toNat (hexCol x).toNat :=
  weightD_of_run (getWeightRun_of_inBounds hrect hb)

/-- The stored weight of an in-bounds hex is an entry of the tiles table. -/
theorem weightD_mem {g : Grid} {x : Hex} (hrect : Rect g)
    (hb : inBounds g x = true) :
    ∃ t ∈ g.tiles, weightD g x ∈ t := by
  obtain ⟨hlen, hrow⟩ := hrect
  rcases inBounds_iff.mp hb with ⟨h1, h2, h3, h4⟩
  have hr : (hexRow x).toNat < g.height := by unfold hexRow; omega
  have hc : (hexCol x).toNat < g.width := by rw [hexCol_eq]; omega
  have h1' : (hexRow x).toNat < g.tiles.length := lt_of_lt_of_le hr hlen
  have hmem := List.getElem_mem h1'
  have h2' : (hexCol x).toNat < g.tiles[(hexRow x).toNat].length :=
    lt_of_lt_of_le hc (hrow _ hmem)
  refine ⟨g.tiles[(hexRow x).toNat], hmem, ?_⟩
  rw [weightD_of_inBounds ⟨hlen, hrow⟩ hb]
  unfold tileD
  rw [List.getD_eq_getElem?_getD g.tiles, List.getElem?_eq_getElem h1',
    Option.getD_some, List.getD_eq_getElem?_getD, List.getElem?_eq_getElem h2',
    Option.getD_some]
  exact List.getElem_mem h2'

theorem weightD_pos {g : Grid} {x : Hex} (hrect : Rect g) (hmin : MinOne g)
    (hb : inBounds g x = true) : 1 ≤ weightD g x := by
  obtain ⟨t, ht, hw⟩ := weightD_mem hrect hb
  exact hmin t ht _ hw

theorem weightD_uniform {g : Grid} {x : Hex} {k : Nat} (hrect : Rect g)
    (huni : Uniform g k) (hb : inBounds g x = true) : weightD g x = k := by
  obtain ⟨t, ht, hw⟩ := weightD_mem hrect hb
  exact huni t ht _ hw

/-! ### The successor relation -/

theorem mem_succs_iff {g : Grid} {u v : Hex} {w : Nat} :
    (v, w) ∈ succs g u ↔ v ∈ u.neighbors ∧ getWeightRun g v = some w := by
  unfold succs
  rw [List.mem_filterMap]
  constructor
  · rintro ⟨n, hn, hf⟩
    rw [Option.map_eq_some'] at hf
    rcases hf with ⟨w', hw', heq⟩
    cases heq
    exact ⟨hn, hw'⟩
  · rintro ⟨hn, hw⟩
    exact ⟨v, hn, by rw [hw]; rfl⟩

theorem stepOK_succs {g : Grid} {u v : Hex} (hrect : Rect g)
    (h : stepOK g u v) : (v, weightD g v) ∈ succs g u := by
  rcases h with ⟨hn, hb⟩
  rw [mem_succs_iff]
  exact ⟨hn, by rw [getWeightRun_of_inBounds hrect hb,
    weightD_of_inBounds hrect hb]⟩

theorem succs_stepOK {g : Grid} {u v : Hex} {w : Nat}
    (h : (v, w) ∈ succs g u) : stepOK g u v ∧ weightD g v = w := by
  rw [mem_succs_iff] at h
  exact ⟨⟨h.1, getWeightRun_inBounds h.2⟩, weightD_of_run h.2⟩

/-! ### Basic facts about bounds-valid walks -/

theorem RWalk.head {g : Grid} {p : List Hex} {v : Hex} {c : Nat}
    (h : RWalk g p v c) : p.head? = some v := by
  cases h <;> rfl

theorem RWalk.ne_nil {g : Grid} {p : List Hex} {v : Hex} {c : Nat}
    (h : RWalk g p v c) : p ≠ [] := by
  cases h <;> simp

theorem RWalk.nodes {g : Grid} {p : List Hex} {v : Hex} {c : Nat}
    (h : RWalk g p v c) : ∀ x ∈ p, x = startHex ∨ inBounds g x = true := by
  induction h with
  | base => intro x hx; simp at hx; exact .inl hx
  | step hw hs ih =>
    intro x hx
    rcases List.mem_cons.mp hx with rfl | hx
    · exact .inr hs.2
    · exact ih x hx

theorem RWalk.endpoint {g : Grid} {p : List Hex} {v : Hex} {c : Nat}
    (h : RWalk g p v c) : v = startHex ∨ inBounds g v = true := by
  cases h with
  | base => exact .inl rfl
  | step hw hs => exact .inr hs.2

/-! ### The relaxation table -/

theorem lookupT_mem {t : Table} {v : Hex} {cp : Nat × List Hex}
    (h : lookupT t v = some cp) : (v, cp) ∈ t := by
  unfold lookupT at h
  rw [Option.map_eq_some'] at h
  rcases h with ⟨e, he, h2⟩
  have h1 : e.1 = v := by
    have := List.find?_some he
    simpa using this
  have hm := List.mem_of_find?_eq_some he
  rw [← h1, ← h2]
  exact hm

theorem find?_filter_ne {t : Table} {u v : Hex} (huv : u ≠ v) :
    (t.filter fun e => decide (¬ e.1 = v)).find? (fun e => decide (e.1 = u)) =
      t.find? fun e => decide (e.1 = u) := by
  induction t with
  | nil => rfl
  | cons e t ih =>
    by_cases hev : e.1 = v
    · have h1 : (decide (¬ e.1 = v)) = false := by simp [hev]
      have h2 : (decide (e.1 = u)) = false := by simp [hev, (Ne.symm huv)]
      simp only [List.filter_cons, h1, if_neg, List.find?_cons, h2]
      simp only [Bool.false_eq_true, if_false]
      exact ih
    · have h1 : (decide (¬ e.1 = v)) = true := by simp [hev]
      simp only [List.filter_cons, h1, if_true, List.find?_cons]
      by_cases heu : e.1 = u
      · simp [heu]
      · have h2 : (decide (e.1 = u)) = false := by simp [heu]
        simp only [h2, Bool.false_eq_true, if_false]
        exact ih

theorem lookupT_upsert_other {t : Table} {u v : Hex} {c : Nat} {p : List Hex}
    (huv : u ≠ v) : lookupT (upsert t v c p) u = lookupT t u := by
  unfold upsert
  cases hl : lookupT t v with
  | some cp =>
    by_cases hle : cp.1 ≤ c
    · simp [hle]
    · simp only [hle, if_false]
      unfold lookupT
      rw [List.find?_cons]
      have h2 : (decide ((v, c, p).1 = u)) = false := by
        simp [Ne.symm huv]
      simp only [h2, Bool.false_eq_true, if_false]
      rw [find?_filter_ne huv]
  | none => 
    unfold lookupT
    rw [List.find?_cons]
    have h2 : (decide ((v, c, p).1 = u)) = false := by simp [Ne.symm huv]
    simp only [h2, Bool.false_eq_true, if_false]

theorem lookupT_upsert_self {t : Table} {v : Hex} {c : Nat} {p : List Hex} :
    ∃ cp, lookupT (upsert t v c p) v = some cp ∧ cp.1 ≤ c ∧
      ∀ cp₀, lookupT t v = some cp₀ → cp.1 ≤ cp₀.1 := by
  unfold upsert
  cases hl : lookupT t v with
  | some cp =>
    by_cases hle : cp.1 ≤ c
    · refine ⟨cp, by simp [hle, hl], hle, ?_⟩
      intro cp₀ h0
      cases h0
      exact le_refl _
    · refine ⟨(c, p), ?_, le_refl _, ?_⟩
      · simp only [hle, if_false]
        unfold lookupT
        rw [List.find?_cons]
        simp
      · intro cp₀ h0
        cases h0
        omega
  | none =>
    refine ⟨(c, p), ?_, le_refl _, ?_⟩
    · unfold lookupT
      rw [List.find?_cons]
      simp
    · intro cp₀ h0
      simp at h0

theorem upsert_mem {t : Table} {v : Hex} {c : Nat} {p : List Hex} {e : Hex × Nat × List Hex}
    (h : e ∈ upsert t v c p) : e = (v, c, p) ∨ e ∈ t := by
  unfold upsert at h
  cases hl : lookupT t v with
  | some cp =>
    rw [hl] at h
    by_cases hle : cp.1 ≤ c
    · simp only [hle, if_true] at h
      exact .inr h
    · simp only [hle, if_false] at h
      rcases List.mem_cons.mp h with rfl | h
      · exact .inl rfl
      · exact .inr (List.mem_filter.mp h).1
  | none =>
    rw [hl] at h
    rcases List.mem_cons.mp h with rfl | h
    · exact .inl rfl
    · exact .inr h

/-! ### Relaxation: monotonicity and absorption of candidates -/

theorem foldl_upsert_mono {l : List (Hex × Nat × List Hex)} {t : Table} {v : Hex}
    {cp : Nat × List Hex} (h : lookupT t v = some cp) :
    ∃ cp', lookupT (l.foldl (fun acc e => upsert acc e.1 e.2.1 e.2.2) t) v = some cp' ∧
      cp'.1 ≤ cp.1 := by
  induction l generalizing t cp with
  | nil => exact ⟨cp, h, le_refl _⟩
  | cons e l ih =>
    simp only [List.foldl_cons]
    by_cases hv : e.1 = v
    · subst hv
      obtain ⟨cp1, h1, hle1, hbest⟩ :=
        lookupT_upsert_self (t := t) (v := e.1) (c := e.2.1) (p := e.2.2)
      obtain ⟨cp', h', hle'⟩ := ih h1
      exact ⟨cp', h', le_trans hle' (hbest _ h)⟩
    · have heq := lookupT_upsert_other (t := t) (c := e.2.1) (p := e.2.2)
        (fun hc => hv hc.symm)
      rw [h] at heq
      exact ih heq

theorem foldl_upsert_le {l : List (Hex × Nat × List Hex)} {t : Table}
    {e : Hex × Nat × List Hex} (he : e ∈ l) :
    ∃ cp', lookupT (l.foldl (fun acc e => upsert acc e.1 e.2.1 e.2.2) t) e.1 = some cp' ∧
      cp'.1 ≤ e.2.1 := by
  induction l generalizing t with
  | nil => cases he
  | cons a l ih =>
    simp only [List.foldl_cons]
    rcases List.mem_cons.mp he with rfl | he
    · obtain ⟨cp1, h1, hle1, _⟩ :=
        lookupT_upsert_self (t := t) (v := e.1) (c := e.2.1) (p := e.2.2)
      obtain ⟨cp', h', hle'⟩ := foldl_upsert_mono h1
      exact ⟨cp', h', le_trans hle' hle1⟩
    · exact ih he

/-! ### Soundness: every table entry is a bounds-valid walk -/

/-- Every entry of the table carries a bounds-valid walk realising its
recorded cost. -/
def GoodT (g : Grid) (t : Table) : Prop :=
  ∀ e ∈ t, RWalk g e.2.2 e.1 e.2.1

theorem goodT_upsert {g : Grid} {t : Table} {v : Hex} {c : Nat} {p : List Hex}
    (hg : GoodT g t) (hw : RWalk g p v c) : GoodT g (upsert t v c p) := by
  intro e he
  rcases upsert_mem he with rfl | he
  · exact hw
  · exact hg e he

theorem goodT_foldl {g : Grid} {l : List (Hex × Nat × List Hex)} {t : Table}
    (hg : GoodT g t) (hl : ∀ e ∈ l, RWalk g e.2.2 e.1 e.2.1) :
    GoodT g (l.foldl (fun acc e => upsert acc e.1 e.2.1 e.2.2) t) := by
  induction l generalizing t with
  | nil => exact hg
  | cons a l ih =>
    simp only [List.foldl_cons]
    exact ih (goodT_upsert hg (hl a (List.mem_cons_self a l)))
      fun e he => hl e (List.mem_cons_of_mem a he)

theorem candidates_good {g : Grid} {t : Table} (hg : GoodT g t) :
    ∀ e ∈ candidates g t, RWalk g e.2.2 e.1 e.2.1 := by
  intro e he
  unfold candidates at he
  rw [List.mem_flatMap] at he
  rcases he with ⟨a, ha, he⟩
  rw [List.mem_map] at he
  rcases he with ⟨sw, hsw, rfl⟩
  have hsw' : (sw.1, sw.2) ∈ succs g a.1 := hsw
  obtain ⟨hstep, hwt⟩ := succs_stepOK hsw'
  have := (hg a ha).step hstep
  rwa [hwt] at this

theorem goodT_iter (g : Grid) (k : Nat) : GoodT g (iterRelax g k) := by
  induction k with
  | zero =>
    intro e he
    simp only [iterRelax] at he
    rcases List.mem_singleton.mp he with rfl
    exact RWalk.base
  | succ k ih =>
    simp only [iterRelax, relaxRound]
    exact goodT_foldl ih (candidates_good ih)

theorem lookupT_iter_walk {g : Grid} {k : Nat} {v : Hex} {cp : Nat × List Hex}
    (h : lookupT (iterRelax g k) v = some cp) : RWalk g cp.2 v cp.1 :=
  goodT_iter g k _ (lookupT_mem h)

/-! ### Completeness: every short-enough walk is recorded -/

theorem lookupT_start (g : Grid) (k : Nat) :
    ∃ cp, lookupT (iterRelax g k) startHex = some cp ∧ cp.1 = 0 := by
  induction k with
  | zero => exact ⟨(0, [startHex]), by simp [iterRelax, lookupT], rfl⟩
  | succ k ih =>
    obtain ⟨cp, h, h0⟩ := ih
    simp only [iterRelax, relaxRound]
    obtain ⟨cp', h', hle'⟩ := foldl_upsert_mono h
    exact ⟨cp', h', by omega⟩

theorem complete {g : Grid} {p : List Hex} {v : Hex} {c : Nat} (hrect : Rect g)
    (hw : RWalk g p v c) :
    ∀ k, p.length ≤ k + 1 → ∃ cp, lookupT (iterRelax g k) v = some cp ∧ cp.1 ≤ c := by
  induction hw with
  | base =>
    intro k _
    obtain ⟨cp, h, h0⟩ := lookupT_start g k
    exact ⟨cp, h, by omega⟩
  | @step p u v c hw hs ih =>
    intro k hk
    have hlen : 1 ≤ p.length := List.length_pos.mpr hw.ne_nil
    simp only [List.length_cons] at hk
    obtain ⟨k', rfl⟩ : ∃ k', k = k' + 1 := ⟨k - 1, by omega⟩
    obtain ⟨cp, hcp, hle⟩ := ih k' (by omega)
    have hmem : ((u : Hex), cp) ∈ iterRelax g k' := lookupT_mem hcp
    have hsucc : (v, weightD g v) ∈ succs g u := stepOK_succs hrect hs
    have hcand : (v, cp.1 + weightD g v, v :: cp.2) ∈ candidates g (iterRelax g k') := by
      unfold candidates
      rw [List.mem_flatMap]
      refine ⟨(u, cp), hmem, ?_⟩
      rw [List.mem_map]
      exact ⟨(v, weightD g v), hsucc, rfl⟩
    obtain ⟨cp', h', hle'⟩ := foldl_upsert_le hcand
    exact ⟨cp', h', by simp only at hle'; omega⟩

/-! ### Shortening a walk to a duplicate-free one -/

theorem RWalk.suffix {g : Grid} {p : List Hex} {v : Hex} {c : Nat}
    (h : RWalk g p v c) :
    ∀ p₁ x p₂, p = p₁ ++ x :: p₂ → ∃ c₂, c₂ ≤ c ∧ RWalk g (x :: p₂) x c₂ := by
  induction h with
  | base =>
    intro p₁ x p₂ heq
    cases p₁ with
    | nil =>
      simp only [List.nil_append, List.cons.injEq] at heq
      rcases heq with ⟨rfl, rfl⟩
      exact ⟨0, le_refl _, RWalk.base⟩
    | cons a p₁ =>
      simp only [List.cons_append, List.cons.injEq] at heq
      rcases heq with ⟨rfl, heq⟩
      simp at heq
  | @step p u v c hw hs ih =>
    intro p₁ x p₂ heq
    cases p₁ with
    | nil =>
      simp only [List.nil_append, List.cons.injEq] at heq
      rcases heq with ⟨rfl, rfl⟩
      exact ⟨c + weightD g v, le_refl _, hw.step hs⟩
    | cons a p₁ =>
      simp only [List.cons_append, List.cons.injEq] at heq
      rcases heq with ⟨rfl, heq⟩
      obtain ⟨c₂, hc₂, hw₂⟩ := ih p₁ x p₂ heq
      exact ⟨c₂, by omega, hw₂⟩

theorem RWalk.shorten {g : Grid} {p : List Hex} {v : Hex} {c : Nat}
    (h : RWalk g p v c) :
    ∃ p' c', RWalk g p' v c' ∧ c' ≤ c ∧ p'.Nodup := by
  induction h with
  | base => exact ⟨[startHex], 0, RWalk.base, le_refl _, by simp⟩
  | @step p u v c hw hs ih =>
    obtain ⟨p', c', hw', hle', hnd'⟩ := ih
    by_cases hv : v ∈ p'
    · obtain ⟨p₁, p₂, rfl⟩ := List.append_of_mem hv
      obtain ⟨c₂, hc₂, hw₂⟩ := hw'.suffix p₁ v p₂ rfl
      refine ⟨v :: p₂, c₂, hw₂, by omega, ?_⟩
      exact (List.sublist_append_right p₁ (v :: p₂)).nodup hnd'
    · exact ⟨v :: p', c' + weightD g v, hw'.step hs, by omega,
        List.nodup_cons.mpr ⟨hv, hnd'⟩⟩

/-! ### Enumerating the in-bounds hexes -/

/-- All in-bounds hexes, one per offset cell `(row, col)`, obtained from
the inverse coordinate mapping `q = col - floor(row/2)`, `r = row`. -/
def offHexes (g : Grid) : List Hex :=
  (List.range g.height).flatMap fun row =>
    (List.range g.width).map fun (col : Nat) =>
      ⟨(col : Int) - ((row / 2 : Nat) : Int), (row : Int)⟩

theorem mem_offHexes {g : Grid} {x : Hex} (hb : inBounds g x = true) :
    x ∈ offHexes g := by
  rcases inBounds_iff.mp hb with ⟨h1, h2, h3, h4⟩
  unfold offHexes
  rw [List.mem_flatMap]
  refine ⟨x.r.toNat, List.mem_range.mpr (by omega), ?_⟩
  rw [List.mem_map]
  refine ⟨(x.q + x.r / 2).toNat, List.mem_range.mpr (by omega), ?_⟩
  cases x with
  | mk q r =>
    simp only [Hex.mk.injEq]
    constructor
    · simp only at h1 h3 ⊢
      omega
    · simp only at h3 ⊢
      omega

theorem length_offHexes (g : Grid) : (offHexes g).length = g.height * g.width := by
  unfold offHexes
  rw [List.length_flatMap]
  have hmap : List.map (List.length ∘ fun row => (List.range g.width).map
      fun (col : Nat) => (⟨(col : Int) - ((row / 2 : Nat) : Int), (row : Int)⟩ : Hex))
      (List.range g.height) = List.replicate g.height g.width := by
    rw [List.eq_replicate_iff]
    constructor
    · rw [List.length_map, List.length_range]
    · intro b hb
      rw [List.mem_map] at hb
      rcases hb with ⟨a, _, rfl⟩
      simp [List.length_map, List.length_range]
  rw [hmap, List.sum_replicate, smul_eq_mul]

theorem nodup_walk_length {g : Grid} {p : List Hex} {v : Hex} {c : Nat}
    (hw : RWalk g p v c) (hnd : p.Nodup) : p.length ≤ searchBound g := by
  have hsub : ∀ x ∈ p, x ∈ startHex :: offHexes g := by
    intro x hx
    rcases hw.nodes x hx with rfl | hb
    · exact List.mem_cons_self _ _
    · exact List.mem_cons_of_mem _ (mem_offHexes hb)
  calc p.length = p.dedup.length := by rw [List.dedup_eq_self.mpr hnd]
    _ = p.toFinset.card := (List.card_toFinset p).symm
    _ ≤ (startHex :: offHexes g).toFinset.card := by
        apply Finset.card_le_card
        intro x hx
        rw [List.mem_toFinset] at hx ⊢
        exact hsub x hx
    _ ≤ (startHex :: offHexes g).length := List.toFinset_card_le _
    _ = g.height * g.width + 1 := by rw [List.length_cons, length_offHexes]
    _ = searchBound g := by unfold searchBound; rw [Nat.mul_comm]

/-! ### The search result: sound and minimal -/

theorem find_some_walk {g : Grid} {path : List Hex} {c : Nat}
    (hfind : find_shortest_path g = some (path, c)) :
    ∃ rp, RWalk g rp (goalHex g) c ∧ path = rp.reverse := by
  unfold find_shortest_path at hfind
  rw [Option.map_eq_some'] at hfind
  rcases hfind with ⟨cp, hcp, heq⟩
  have hw := lookupT_iter_walk hcp
  cases heq
  exact ⟨cp.2, hw, rfl⟩

theorem find_some_min {g : Grid} {path : List Hex} {c : Nat} (hrect : Rect g)
    (hfind : find_shortest_path g = some (path, c)) :
    ∀ p' c', RWalk g p' (goalHex g) c' → c ≤ c' := by
  intro p' c' hw'
  obtain ⟨p'', c'', hw'', hle'', hnd''⟩ := hw'.shorten
  have hlen : p''.length ≤ searchBound g + 1 :=
    le_trans (nodup_walk_length hw'' hnd'') (Nat.le_succ _)
  obtain ⟨cp₀, hcp₀, hle₀⟩ := complete hrect hw'' (searchBound g) hlen
  unfold find_shortest_path at hfind
  rw [Option.map_eq_some'] at hfind
  rcases hfind with ⟨cp, hcp, heq⟩
  rw [hcp₀] at hcp
  cases hcp
  injection heq with h1 h2
  omega

/-! ### Bridging reversed walks and forward sequences -/

theorem RWalk.last {g : Grid} {p : List Hex} {v : Hex} {c : Nat}
    (h : RWalk g p v c) : p.getLast? = some startHex := by
  induction h with
  | base => rfl
  | @step p u v c hw hs ih =>
    obtain ⟨b, tl, rfl⟩ : ∃ b tl, p = b :: tl := by
      cases p with
      | nil => exact absurd rfl hw.ne_nil
      | cons b tl => exact ⟨b, tl, rfl⟩
    rw [List.getLast?_cons_cons]
    exact ih

theorem RWalk.chain {g : Grid} {p : List Hex} {v : Hex} {c : Nat}
    (h : RWalk g p v c) : p.Chain' (flip (stepOK g)) := by
  induction h with
  | base => simp
  | @step p u v c hw hs ih =>
    rw [List.chain'_cons']
    refine ⟨?_, ih⟩
    intro y hy
    rw [hw.head, Option.mem_some_iff] at hy
    subst hy
    exact hs

/-- The cost of a reversed path: the weights of all nodes but the final
(start) one. -/
def revCost (g : Grid) : List Hex → Nat
  | a :: b :: rest => weightD g a + revCost g (b :: rest)
  | _ => 0

theorem RWalk.cost_eq {g : Grid} {p : List Hex} {v : Hex} {c : Nat}
    (h : RWalk g p v c) : c = revCost g p := by
  induction h with
  | base => rfl
  | @step p u v c hw hs ih =>
    obtain ⟨b, tl, rfl⟩ : ∃ b tl, p = b :: tl := by
      cases p with
      | nil => exact absurd rfl hw.ne_nil
      | cons b tl => exact ⟨b, tl, rfl⟩
    show c + weightD g v = weightD g v + revCost g (b :: tl)
    omega

theorem seqCost_reverse (g : Grid) : ∀ q : List Hex, seqCost g q.reverse = revCost g q := by
  intro q
  induction q with
  | nil => rfl
  | cons a q ih =>
    cases q with
    | nil => rfl
    | cons b rest =>
      have hne : (b :: rest).reverse ≠ [] := by simp
      obtain ⟨x, xs, hx⟩ : ∃ x xs, (b :: rest).reverse = x :: xs := by
        cases hrev : (b :: rest).reverse with
        | nil => exact absurd hrev hne
        | cons x xs => exact ⟨x, xs, rfl⟩
      have hrc : revCost g (a :: b :: rest) = weightD g a + revCost g (b :: rest) := rfl
      rw [hrc, List.reverse_cons, ← ih]
      unfold seqCost
      rw [hx]
      show ((xs ++ [a]).map (weightD g)).sum = weightD g a + (xs.map (weightD g)).sum
      rw [List.map_append, List.sum_append]
      simp [Nat.add_comm]

theorem walk_of_chain {g : Grid} :
    ∀ (q : List Hex) (v : Hex), q.Chain' (flip (stepOK g)) → q.head? = some v →
      q.getLast? = some startHex → RWalk g q v (revCost g q) := by
  intro q
  induction q with
  | nil => intro v _ hv _; cases hv
  | cons a q ih =>
    intro v hch hv hlast
    rw [List.head?_cons, Option.some.injEq] at hv
    subst hv
    cases q with
    | nil =>
      have ha : a = startHex := by
        simpa using hlast
      subst ha
      exact RWalk.base
    | cons b rest =>
      rw [List.chain'_cons'] at hch
      obtain ⟨hstep, hch'⟩ := hch
      have hs : stepOK g b a := hstep b (by simp)
      have hw := ih b hch' rfl (by rw [← List.getLast?_cons_cons (a := a)]; exact hlast)
      have hstep' := hw.step hs
      show RWalk g (a :: b :: rest) a (weightD g a + revCost g (b :: rest))
      rwa [Nat.add_comm]

theorem find_sound {g : Grid} {path : List Hex} {c : Nat}
    (hfind : find_shortest_path g = some (path, c)) :
    isValidSeq g path ∧ c = seqCost g path := by
  obtain ⟨rp, hw, rfl⟩ := find_some_walk hfind
  refine ⟨⟨?_, ?_, ?_⟩, ?_⟩
  · rw [List.head?_reverse]
    exact hw.last
  · rw [List.getLast?_reverse]
    exact hw.head
  · rw [List.chain'_reverse]
    exact hw.chain
  · rw [seqCost_reverse]
    exact hw.cost_eq

theorem valid_walk {g : Grid} {p' : List Hex} (h : isValidSeq g p') :
    RWalk g p'.reverse (goalHex g) (seqCost g p') := by
  obtain ⟨h1, h2, h3⟩ := h
  have hch : p'.reverse.Chain' (flip (stepOK g)) := by
    rw [List.chain'_reverse]
    exact h3
  have hw := walk_of_chain p'.reverse (goalHex g) hch
    (by rw [List.head?_reverse]; exact h2) (by rw [List.getLast?_reverse]; exact h1)
  rw [← seqCost_reverse, List.reverse_reverse] at hw
  exact hw

/-! ### Zero-cost walks are trivial -/

theorem walk_cost_zero {g : Grid} {p : List Hex} {v : Hex} {c : Nat} (hrect : Rect g)
    (hmin : MinOne g) (h : RWalk g p v c) (hc : c = 0) : p = [startHex] ∧ v = startHex := by
  cases h with
  | base => exact ⟨rfl, rfl⟩
  | @step p u v c' hw hs =>
    have hpos := weightD_pos hrect hmin hs.2
    omega

/-! ### The hex metric -/

theorem distance_triangle (a b c : Hex) :
    a.distance c ≤ a.distance b + b.distance c := by
  unfold Hex.distance
  omega

theorem distance_neighbor {u v : Hex} (h : v ∈ u.neighbors) : u.distance v = 1 := by
  unfold Hex.neighbors at h
  simp only [List.mem_cons, List.not_mem_nil, or_false] at h
  unfold Hex.distance
  rcases h with h | h | h | h | h | h
  all_goals subst h
  all_goals simp only
  all_goals omega

/-- Each hop moves at most one unit of hex distance, so any bounds-valid
walk to `v` has at least `distance start v` hops. -/
theorem RWalk.dist_le {g : Grid} {p : List Hex} {v : Hex} {c : Nat}
    (h : RWalk g p v c) : startHex.distance v ≤ p.length - 1 := by
  induction h with
  | base =>
    unfold Hex.distance startHex
    simp
  | @step p u v c hw hs ih =>
    have htri := distance_triangle startHex u v
    have hd := distance_neighbor hs.1
    have hlen : 1 ≤ p.length := List.length_pos.mpr hw.ne_nil
    simp only [List.length_cons]
    omega

/-! ## The claims -/

/-- C1: whenever `find_shortest_path` on a grid with width ≥ 1, height ≥ 1,
rectangular tiles and all weights ≥ 1 returns `Some((path, total_cost))`,
`path` runs from `Hex{0,0}` to `Hex{width-1, height-1}` inclusive, every
consecutive pair are neighbors, every node after the start passes the grid
bounds check, `total_cost` is the sum of the weights of all tiles in `path`
except the start tile, and `total_cost` is the minimum such sum over all
such start-to-goal sequences (the Dijkstra optimum). -/
theorem C1_astar_sound_optimal (g : Grid) (path : List Hex) (c : Nat)
    (hw : 1 ≤ g.width) (hh : 1 ≤ g.height) (hrect : Rect g) (hmin : MinOne g)
    (hfind : find_shortest_path g = some (path, c)) :
    isValidSeq g path ∧ c = seqCost g path ∧
      ∀ p', isValidSeq g p' → c ≤ seqCost g p' := by
  obtain ⟨hvalid, hcost⟩ := find_sound hfind
  refine ⟨hvalid, hcost, ?_⟩
  intro p' hp'
  exact find_some_min hrect hfind _ _ (valid_walk hp')

theorem C1_witness :
    isValidSeq ⟨3, 2, [[1, 2, 3], [4, 5, 6]]⟩ [⟨0, 0⟩, ⟨1, 0⟩, ⟨2, 0⟩, ⟨2, 1⟩] ∧
      (11 : Nat) = seqCost ⟨3, 2, [[1, 2, 3], [4, 5, 6]]⟩ [⟨0, 0⟩, ⟨1, 0⟩, ⟨2, 0⟩, ⟨2, 1⟩] := by
  have h := C1_astar_sound_optimal ⟨3, 2, [[1, 2, 3], [4, 5, 6]]⟩
    [⟨0, 0⟩, ⟨1, 0⟩, ⟨2, 0⟩, ⟨2, 1⟩] 11
    (by decide) (by decide) (by decide) (by decide) (by decide)
  exact ⟨h.1, h.2.1⟩

/-- C2: the claim asserts that for every grid with width ≥ 1 and height ≥ 1
the goal `Hex{width-1, height-1}` is in bounds and the search returns
`Some`.  The code disagrees: already on the all-ones 1×3 grid the goal
`Hex{0,2}` maps to offset `(row 2, col 0 + floor(2/2) = 1)`, which fails the
`col < width` check, so the goal is unreachable and the search returns
`None`. -/
theorem C2_goal_out_of_bounds_eval :
    find_shortest_path ⟨1, 3, [[1], [1], [1]]⟩ = none ∧
      inBounds ⟨1, 3, [[1], [1], [1]]⟩ (goalHex ⟨1, 3, [[1], [1], [1]]⟩) = false := by
  decide

/-- C3: for every `Hex{q,r}` and every well-formed grid, `get_weight`
converts `row = r` and `col = q + floor(r/2)` — the code's
`(r - (r & 1)) / 2` equals floor division for every integer `r`, odd
negative `r` included — and returns the stored `tiles[row][col]` when
`0 ≤ row < height` and `0 ≤ col < width`, and `None` otherwise. -/
theorem C3_get_weight_mapping :
    (∀ r : Int, (r - land1 r).tdiv 2 = r.fdiv 2) ∧
    ∀ (g : Grid) (hex : Hex), Rect g →
      g.get_weight hex =
        if 0 ≤ hex.r ∧ hex.r < (g.height : Int) ∧
            0 ≤ hex.q + hex.r.fdiv 2 ∧ hex.q + hex.r.fdiv 2 < (g.width : Int) then
          some (some (tileD g hex.r.toNat (hex.q + hex.r.fdiv 2).toNat))
        else some none := by
  have hfd : ∀ r : Int, (r - land1 r).tdiv 2 = r.fdiv 2 := by
    intro r
    rw [tdiv_step, fdiv_two]
  refine ⟨hfd, ?_⟩
  intro g hex hrect
  have hcol : hexCol hex = hex.q + hex.r.fdiv 2 := by
    rw [hexCol_eq, fdiv_two]
  have hrow : hexRow hex = hex.r := rfl
  have hcond : inBounds g hex = true ↔
      (0 ≤ hex.r ∧ hex.r < (g.height : Int) ∧
        0 ≤ hex.q + hex.r.fdiv 2 ∧ hex.q + hex.r.fdiv 2 < (g.width : Int)) := by
    rw [inBounds_iff, fdiv_two]
    tauto
  unfold Grid.get_weight
  by_cases hb : inBounds g hex = true
  · rw [if_pos hb, if_pos (hcond.mp hb)]
    rcases inBounds_iff.mp hb with ⟨h1, h2, h3, h4⟩
    have hr : (hexRow hex).toNat < g.height := by rw [hrow]; omega
    have hc : (hexCol hex).toNat < g.width := by rw [hexCol_eq]; omega
    rw [tileAt_eq_some hrect hr hc, Option.map_some']
    rw [hcol, hrow]
  · rw [if_neg hb, if_neg fun hcnd => hb (hcond.mpr hcnd)]

theorem C3_witness :
    (⟨3, 2, [[1, 2, 3], [4, 5, 6]]⟩ : Grid).get_weight ⟨1, 1⟩ = some (some 5) := by
  have h := C3_get_weight_mapping.2 ⟨3, 2, [[1, 2, 3], [4, 5, 6]]⟩ ⟨1, 1⟩ (by decide)
  rw [h]
  decide

/-- C6: on every 1×1 grid (any positive weight) the search returns the
single-node path `[Hex{0,0}]` with cost 0. -/
theorem C6_singleton_grid (g : Grid) (hw : g.width = 1) (hh : g.height = 1)
    (hrect : Rect g) (hmin : MinOne g) :
    find_shortest_path g = some ([startHex], 0) := by
  have hgoal : goalHex g = startHex := by
    unfold goalHex startHex
    rw [hw, hh]
    decide
  obtain ⟨cp, hcp, h0⟩ := lookupT_start g (searchBound g)
  have hwalk := lookupT_iter_walk hcp
  obtain ⟨hp, -⟩ := walk_cost_zero hrect hmin hwalk h0
  unfold find_shortest_path
  rw [hgoal, hcp, Option.map_some', hp, h0]
  rfl

theorem C6_witness : find_shortest_path ⟨1, 1, [[7]]⟩ = some ([startHex], 0) :=
  C6_singleton_grid ⟨1, 1, [[7]]⟩ rfl rfl (by decide) (by decide)

/-- The inverse coordinate mapping named by the claim: offset cell
`(row, col)` corresponds to the axial coordinate `q = col - floor(row/2)`,
`r = row`. -/
def axialOfOffset (row col : Nat) : Hex :=
  ⟨(col : Int) - ((row / 2 : Nat) : Int), (row : Int)⟩

/-- C7: for every well-formed grid and every in-bounds offset cell
`(row, col)`, the axial coordinate produced by the inverse mapping is sent
back to exactly `(row, col)` by `get_weight`'s forward mapping, and
`get_weight` returns the stored weight `tiles[row][col]`. -/
theorem C7_roundtrip (g : Grid) (row col : Nat) (hrect : Rect g)
    (hr : row < g.height) (hc : col < g.width) :
    (hexRow (axialOfOffset row col), hexCol (axialOfOffset row col)) =
        ((row : Int), (col : Int)) ∧
      g.get_weight (axialOfOffset row col) = some (some (tileD g row col)) := by
  have hrow : hexRow (axialOfOffset row col) = (row : Int) := rfl
  have hcol : hexCol (axialOfOffset row col) = (col : Int) := by
    rw [hexCol_eq]
    unfold axialOfOffset
    simp only
    omega
  refine ⟨by rw [hrow, hcol], ?_⟩
  have hb : inBounds g (axialOfOffset row col) = true := by
    rw [inBounds_iff]
    unfold axialOfOffset
    simp only
    omega
  unfold Grid.get_weight
  rw [if_pos hb]
  have h1 : (hexRow (axialOfOffset row col)).toNat = row := by
    rw [hrow]
    exact Int.toNat_natCast row
  have h2 : (hexCol (axialOfOffset row col)).toNat = col := by
    rw [hcol]
    exact Int.toNat_natCast col
  rw [h1, h2, tileAt_eq_some hrect hr hc, Option.map_some']

theorem C7_witness :
    (hexRow (axialOfOffset 1 2), hexCol (axialOfOffset 1 2)) = ((1 : Int), (2 : Int)) ∧
      (⟨3, 2, [[1, 2, 3], [4, 5, 6]]⟩ : Grid).get_weight (axialOfOffset 1 2) =
        some (some (tileD ⟨3, 2, [[1, 2, 3], [4, 5, 6]]⟩ 1 2)) :=
  C7_roundtrip ⟨3, 2, [[1, 2, 3], [4, 5, 6]]⟩ 1 2 (by decide) (by decide) (by decide)

/-- C8: `neighbors()` returns exactly the six hexes obtained by adding the
axial offsets `(+1,0), (-1,0), (0,+1), (0,-1), (+1,-1), (-1,+1)`, in that
fixed order. -/
theorem C8_neighbors_offsets (h : Hex) :
    h.neighbors = [((1 : Int), (0 : Int)), (-1, 0), (0, 1), (0, -1), (1, -1), (-1, 1)].map
      fun o => ⟨h.q + o.1, h.r + o.2⟩ := by
  simp only [Hex.neighbors, List.map_cons, List.map_nil, List.cons.injEq,
    Hex.mk.injEq, and_true]
  norm_num
  omega

/-- C9: the hex distance `(|Δq| + |Δq+Δr| + |Δr|) / 2` is symmetric, and
the distance from any hex to itself is 0. -/
theorem C9_distance_symm_self (a b : Hex) :
    a.distance b = b.distance a ∧ a.distance a = 0 := by
  unfold Hex.distance
  constructor
  · omega
  · omega

/-- C10: on any grid whose tiles table has at least `height` rows each
with at least `width` entries, `get_weight` never panics—whenever the
bounds check passes the unchecked indexing stays inside the table—while
on a grid violating that invariant (as `read_map` can produce, since it
validates neither row count nor row length) the indexing can go out of
range: on the claimed 1×1 grid with an empty tiles table, the bounds
check passes yet the lookup panics. -/
theorem C10_bounds_safety :
    (∀ (g : Grid) (hex : Hex), Rect g → ∃ r, g.get_weight hex = some r) ∧
      ∃ (g : Grid) (hex : Hex), inBounds g hex = true ∧ g.get_weight hex = none := by
  constructor
  · intro g hex hrect
    unfold Grid.get_weight
    by_cases hb : inBounds g hex = true
    · rw [if_pos hb]
      rcases inBounds_iff.mp hb with ⟨h1, h2, h3, h4⟩
      have hr : (hexRow hex).toNat < g.height := by unfold hexRow; omega
      have hc : (hexCol hex).toNat < g.width := by rw [hexCol_eq]; omega
      rw [tileAt_eq_some hrect hr hc, Option.map_some']
      exact ⟨_, rfl⟩
    · rw [if_neg hb]
      exact ⟨none, rfl⟩
  · exact ⟨⟨1, 1, []⟩, ⟨0, 0⟩, by decide, by decide⟩

theorem C10_witness :
    ∃ r, (⟨3, 2, [[1, 2, 3], [4, 5, 6]]⟩ : Grid).get_weight ⟨5, 5⟩ = some r :=
  C10_bounds_safety.1 ⟨3, 2, [[1, 2, 3], [4, 5, 6]]⟩ ⟨5, 5⟩ (by decide)


/-- Whether the loader returned the I/O-error value (as opposed to a grid
or a panic). -/
def LoadResult.isIoErrB : LoadResult → Bool
  | .ioErr => true
  | _ => false

/-- C5: the claim says `read_map` fails with a returned load error on a
short header, non-integer tokens, a wrong row token count and non-positive
weights.  The code disagrees: on the two-line file `"3 1" / "1 0"` — whose
single data row has 2 ≠ 3 tokens and contains the non-positive weight 0 —
`read_map` returns `Ok` with the malformed grid. -/
theorem C5_counterexample :
    read_map (some ["3 1", "1 0"]) = LoadResult.ok ⟨3, 1, [[1, 0]]⟩ := by
  decide

/-- C5 amended: `read_map` returns an error value only for I/O failures
(missing file, modelled as `none`); a header with fewer than two tokens or
with non-integer tokens, and any non-integer (including negative) weight
token, make it panic via `unwrap`/indexing instead of returning an error;
and rows whose token count differs from `width`, as well as zero weights,
are silently accepted into the returned grid. -/
theorem C5_read_map_behavior :
    read_map none = LoadResult.ioErr ∧
    (∀ lines, (read_map (some lines)).isIoErrB = false) ∧
    read_map (some []) = LoadResult.panicked ∧
    read_map (some ["5"]) = LoadResult.panicked ∧
    read_map (some ["a b"]) = LoadResult.panicked ∧
    read_map (some ["2 2", "1 x"]) = LoadResult.panicked ∧
    read_map (some ["2 2", "1", "1 2 3"]) = LoadResult.ok ⟨2, 2, [[1], [1, 2, 3]]⟩ ∧
    read_map (some ["2 1", "0 0"]) = LoadResult.ok ⟨2, 1, [[0, 0]]⟩ := by
  refine ⟨rfl, ?_, by decide, by decide, by decide, by decide, by decide, by decide⟩
  intro lines
  unfold read_map
  split
  · rename_i heq
    simp at heq
  · dsimp only
    split <;> first | rfl | (split <;> rfl)

/-- C4: the claim demands `Some` with the uniform cost law on every
uniform-weight grid with width, height ≥ 1; but on the uniform-weight 1×3
grid the goal is out of bounds (see C2) and the search returns `None`. -/
theorem C4_counterexample :
    Rect (⟨1, 3, [[2], [2], [2]]⟩ : Grid) ∧ Uniform ⟨1, 3, [[2], [2], [2]]⟩ 2 ∧
      find_shortest_path ⟨1, 3, [[2], [2], [2]]⟩ = none := by
  decide

/-! ### A geodesic for the reachable (height ≤ 2) case -/

/-- Reversed straight path along row 0 from the start to `⟨n, 0⟩`. -/
def rowR : Nat → List Hex
  | 0 => [startHex]
  | n + 1 => ⟨(n : Int) + 1, 0⟩ :: rowR n

theorem rowR_walk {g : Grid} (hh : 1 ≤ g.height) :
    ∀ n, n < g.width →
      ∃ c, RWalk g (rowR n) ⟨(n : Int), 0⟩ c ∧ (rowR n).length = n + 1 := by
  intro n
  induction n with
  | zero =>
    intro _
    refine ⟨0, ?_, rfl⟩
    have h0 : (⟨((0 : Nat) : Int), 0⟩ : Hex) = startHex := by
      unfold startHex
      norm_num
    rw [h0]
    exact RWalk.base
  | succ n ih =>
    intro hlt
    obtain ⟨c, hwk, hlen⟩ := ih (by omega)
    have hs : stepOK g ⟨(n : Int), 0⟩ ⟨(n : Int) + 1, 0⟩ := by
      constructor
      · simp [Hex.neighbors]
      · rw [inBounds_iff]
        simp only
        omega
    refine ⟨c + weightD g ⟨(n : Int) + 1, 0⟩, ?_, by simp [rowR, hlen]⟩
    have hcast : (((n + 1 : Nat)) : Int) = (n : Int) + 1 := by push_cast; ring
    show RWalk g (⟨(n : Int) + 1, 0⟩ :: rowR n) ⟨((n + 1 : Nat) : Int), 0⟩ _
    rw [hcast]
    exact hwk.step hs

theorem geodesic_exists {g : Grid} (hw : 1 ≤ g.width) (hh : 1 ≤ g.height)
    (hle : g.height ≤ 2) :
    ∃ p c, RWalk g p (goalHex g) c ∧ p.length = g.width + g.height - 1 := by
  obtain ⟨c, hwk, hlen⟩ := rowR_walk hh (g.width - 1) (by omega)
  interval_cases hcase : g.height
  · have hgoal : goalHex g = ⟨((g.width - 1 : Nat) : Int), 0⟩ := by
      unfold goalHex
      rw [hcase]
      rw [Hex.mk.injEq]
      omega
    refine ⟨rowR (g.width - 1), c, ?_, by omega⟩
    rw [hgoal]
    exact hwk
  · have hs : stepOK g ⟨((g.width - 1 : Nat) : Int), 0⟩ ⟨((g.width - 1 : Nat) : Int), 1⟩ := by
      constructor
      · simp [Hex.neighbors]
      · rw [inBounds_iff]
        simp only
        omega
    have hgoal : goalHex g = ⟨((g.width - 1 : Nat) : Int), 1⟩ := by
      unfold goalHex
      rw [hcase]
      rw [Hex.mk.injEq]
      constructor
      · omega
      · norm_num
    have hstep := hwk.step hs
    refine ⟨⟨((g.width - 1 : Nat) : Int), 1⟩ :: rowR (g.width - 1),
      c + weightD g ⟨((g.width - 1 : Nat) : Int), 1⟩, ?_, ?_⟩
    · rw [hgoal]
      exact hstep
    · simp only [List.length_cons]
      omega

theorem walk_cost_uniform {g : Grid} {k : Nat} (hrect : Rect g) (huni : Uniform g k)
    {p : List Hex} {v : Hex} {c : Nat} (h : RWalk g p v c) :
    c = k * (p.length - 1) := by
  induction h with
  | base => simp
  | @step p u v c hw hs ih =>
    have hk := weightD_uniform hrect huni hs.2
    have hlen : 1 ≤ p.length := List.length_pos.mpr hw.ne_nil
    simp only [List.length_cons]
    rw [hk, ih]
    have heq : p.length + 1 - 1 = (p.length - 1) + 1 := by omega
    rw [heq, Nat.mul_succ]

/-- C4 amended: whenever `find_shortest_path` returns `Some((path, cost))`
on a rectangular grid all of whose weights equal the constant k ≥ 1, the
cost is k × (number of hops in `path`) and the number of hops equals the
hex distance between `Hex{0,0}` and `Hex{width-1, height-1}`.  (The
unconditional `Some` of the original claim fails: see the
counterexample.) -/
theorem C4_uniform_cost (g : Grid) (k : Nat) (path : List Hex) (c : Nat)
    (hw : 1 ≤ g.width) (hh : 1 ≤ g.height) (hrect : Rect g)
    (hk : 1 ≤ k) (huni : Uniform g k)
    (hfind : find_shortest_path g = some (path, c)) :
    c = k * (path.length - 1) ∧
      path.length - 1 = startHex.distance (goalHex g) := by
  obtain ⟨rp, hwalk, rfl⟩ := find_some_walk hfind
  have hcost : c = k * (rp.length - 1) := walk_cost_uniform hrect huni hwalk
  have hh2 : g.height ≤ 2 := by
    rcases hwalk.endpoint with hgs | hb
    · unfold goalHex startHex at hgs
      rw [Hex.mk.injEq] at hgs
      omega
    · rw [inBounds_iff] at hb
      unfold goalHex at hb
      simp only at hb
      omega
  have hdist : startHex.distance (goalHex g) = g.width + g.height - 2 := by
    unfold Hex.distance startHex goalHex
    simp only
    omega
  have hlb : startHex.distance (goalHex g) ≤ rp.length - 1 := hwalk.dist_le
  obtain ⟨p₀, c₀, hw₀, hlen₀⟩ := geodesic_exists hw hh hh2
  have hceq : c₀ = k * (p₀.length - 1) := walk_cost_uniform hrect huni hw₀
  have hminim := find_some_min hrect hfind p₀ c₀ hw₀
  have hhops : rp.length - 1 = g.width + g.height - 2 := by
    have h1 : k * (rp.length - 1) ≤ k * (g.width + g.height - 2) := by
      calc k * (rp.length - 1) = c := hcost.symm
        _ ≤ c₀ := hminim
        _ = k * (p₀.length - 1) := hceq
        _ = k * (g.width + g.height - 2) := by rw [hlen₀]; congr 1
    have h2 : rp.length - 1 ≤ g.width + g.height - 2 :=
      Nat.le_of_mul_le_mul_left h1 (by omega)
    omega
  constructor
  · rw [List.length_reverse]
    exact hcost
  · rw [List.length_reverse, hhops, hdist]

theorem C4_witness :
    (6 : Nat) = 3 * (([(⟨0, 0⟩ : Hex), ⟨0, 1⟩, ⟨1, 1⟩].length) - 1) ∧
      ([(⟨0, 0⟩ : Hex), ⟨0, 1⟩, ⟨1, 1⟩].length) - 1 =
        startHex.distance (goalHex ⟨2, 2, [[3, 3], [3, 3]]⟩) :=
  C4_uniform_cost ⟨2, 2, [[3, 3], [3, 3]]⟩ 3 [⟨0, 0⟩, ⟨0, 1⟩, ⟨1, 1⟩] 6
    (by decide) (by decide) (by decide) (by decide) (by decide) (by decide)
